import Mathlib

/-!
# Verification of the `where` SQL-expression library

A shallow embedding of the `where` package (expression trees for SQL
WHERE/HAVING clauses, their renderer, and the ORDER BY / LIMIT / OFFSET
query-constraint builder), with theorems checking the specification's
claims against the code.

Conventions of the embedding:
* Go strings are Lean `String`; Go's rune loops become recursion over
  `String.data` (`List Char`).
* Go `[]any` argument slices are `List Arg`, where `Arg` is a sum of the
  dynamic value kinds the renderer inspects (bool, the integer kinds, and
  strings standing for the `default` branch of `literalValue`); Go's `nil`
  slice and the empty slice are both `[]`.
* A Go `nil` interface value is `Option.none`.
* `panic` becomes `Except.error`.
* The Unicode classes `\pL` / `\pN` of the identifier regexp are modelled
  on the ASCII range via `Char.isAlpha` / `Char.isDigit`.
-/

namespace Where

/-- Dynamic argument values, as far as the renderer inspects them
(`literalValue` in where_format.go): booleans and the integer kinds are
rendered bare; everything else falls to the `default` branch, represented
here by its `%v` string form. -/
inductive Arg where
  | abool : Bool → Arg
  | aint : Int → Arg
  | astr : String → Arg
deriving DecidableEq, Repr

/-- `literalValue` from where_format.go: booleans via `strconv.FormatBool`,
integers via `strconv.FormatInt(..., 10)`, and the default branch
`fmt.Sprintf("'%v'", v)` — note the source's `// TODO replace ' with ''`:
embedded single quotes are NOT doubled. -/
def literalValue : Arg → String
  | .abool b => if b then "true" else "false"
  | .aint i => toString i
  | .astr s => "'" ++ s ++ "'"

/-- `nilIfEmpty` from where_format.go (Go's nil slice is `[]` here). -/
def nilIfEmpty (args : List Arg) : List Arg :=
  if args.isEmpty then [] else args

/-- Number of placeholder characters in a string (the counting loops of
`replacePlaceholders` / `inlinePlaceholders`). -/
def countQ (s : String) : Nat := s.data.countP (fun c => c == '?')

/-- `strings.Join` (used by `Clause.doFormat`). -/
def joinStrings (sep : String) : List String → String
  | [] => ""
  | [s] => s
  | s :: rest => s ++ sep ++ joinStrings sep rest

/-- The expression tree from where.go: `Condition`, `not`, `Clause`. -/
inductive Expression where
  | condition (column predicate : String) (args : List Arg)
  | negation (e : Expression)
  | clause (wheres : List Expression) (conjunction : String)
deriving Repr

mutual

/-- `doFormat` of each `Expression` variant (where_format.go), parameterised
by the quoter `q` (`quote.Quoter.QuoteW`).
* Condition: quoted column, then the predicate verbatim; args via `nilIfEmpty`.
* not: empty child fragment propagates; otherwise `NOT (...)`.
* Clause: children with empty fragments are skipped, the rest are
  parenthesised and joined with the conjunction. -/
def doFormat (q : String → String) : Expression → String × List Arg
  | .condition col pred args => (q col ++ pred, nilIfEmpty args)
  | .negation e =>
      let r := doFormat q e
      if r.1 = "" then ("", r.2) else ("NOT (" ++ r.1 ++ ")", r.2)
  | .clause ws conj =>
      match ws with
      | [] => ("", [])
      | w :: rest =>
          let r := doFormatList q (w :: rest)
          (joinStrings conj r.1, r.2)

/-- The loop body of `Clause.doFormat`: collect the parenthesised non-empty
child fragments and their args, in order. -/
def doFormatList (q : String → String) : List Expression → List String × List Arg
  | [] => ([], [])
  | w :: rest =>
      let r := doFormat q w
      let rs := doFormatList q rest
      if r.1.length > 0 then (("(" ++ r.1 ++ ")") :: rs.1, r.2 ++ rs.2)
      else (rs.1, rs.2)

end

/-- The format options of dialect/format_option.go. -/
inductive FormatOption where
  | Query | Dollar | AtP | Inline
  | NoQuotes | ANSIQuotes | Backticks | SquareBrackets
deriving DecidableEq, Repr

/-- The no-quotes quoter (`quote.None`): identifiers unchanged. -/
def quoteNone (identifier : String) : String := identifier

/-- One character of the identifier regexp `[\pL\pN_]` (ASCII range). -/
def validIdentChar (c : Char) : Bool := c.isAlpha || c.isDigit || c == '_'

/-- `validIdentifier` regexp from quote/quoter.go: `^\pL[\pL\pN_]*$`. -/
def validIdentifier (s : String) : Bool :=
  match s.data with
  | [] => false
  | c :: rest => c.isAlpha && rest.all validIdentChar

/-- `quoter.QuoteW` from quote/quoter.go: split a non-empty identifier on
dots; if every part matches `validIdentifier`, wrap with the quoter's
marks, otherwise leave the whole identifier unaltered. -/
def quoteBBA (before between after : String) (identifier : String) : String :=
  if identifier = "" then ""
  else
    let names := identifier.splitOn "."
    if names.all validIdentifier then before ++ joinStrings between names ++ after
    else identifier

def quoteANSI : String → String := quoteBBA "\"" "\".\"" "\""

def quoteBackticks : String → String := quoteBBA "`" "`.`" "`"

def quoteSquareBrackets : String → String := quoteBBA "[" "].[" "]"

/-- `quoterFromOptions` from where_format.go (v2 `quote.DefaultQuoter` is
`quote.None`). -/
def quoterFromOptions (option : List FormatOption) : String → String :=
  option.foldl
    (fun quoter o =>
      match o with
      | .NoQuotes => quoteNone
      | .ANSIQuotes => quoteANSI
      | .Backticks => quoteBackticks
      | .SquareBrackets => quoteSquareBrackets
      | _ => quoter)
    quoteNone

/-- `placeholderFromOptions` from where_format.go. -/
def placeholderFromOptions (option : List FormatOption) : String × Bool :=
  option.foldl
    (fun st o =>
      match o with
      | .Dollar => ("$", st.2)
      | .AtP => ("@p", st.2)
      | .Inline => (st.1, true)
      | _ => st)
    ("", false)

/-- The rune loop of `inlinePlaceholders`: a `?` with arguments remaining is
replaced by the literal rendering of the first argument (consuming it);
every other rune — including a `?` once the arguments have run out — is
copied verbatim. -/
def inlineChars : List Char → List Arg → List Char × List Arg
  | [], args => ([], args)
  | c :: rest, args =>
      match args with
      | a :: more =>
          if c = '?' then
            let r := inlineChars rest more
            ((literalValue a).data ++ r.1, r.2)
          else
            let r := inlineChars rest (a :: more)
            (c :: r.1, r.2)
      | [] =>
          let r := inlineChars rest []
          (c :: r.1, r.2)

/-- `inlinePlaceholders` from where_format.go. -/
def inlinePlaceholders (sql : String) (args : List Arg) : String × List Arg :=
  let r := inlineChars sql.data args
  (String.mk r.1, nilIfEmpty r.2)

/-- The rune loop of `replacePlaceholders`: each `?` becomes the numbering
marker followed by the current count, which then increments. -/
def replaceChars (pfx : String) : List Char → Nat → List Char
  | [], _ => []
  | c :: rest, count =>
      if c = '?' then pfx.data ++ (toString count).data ++ replaceChars pfx rest (count + 1)
      else c :: replaceChars pfx rest count

/-- `replacePlaceholders` from where_format.go: inline mode splices values;
with an empty numbering marker the fragment and args pass through raw;
otherwise the placeholders are numbered starting at `start` and the args
are returned through `nilIfEmpty`. -/
def replacePlaceholders (sql : String) (args : List Arg) (pfx : String)
    (inline : Bool) (start : Nat) : String × List Arg :=
  if inline then inlinePlaceholders sql args
  else if pfx = "" then (sql, args)
  else (String.mk (replaceChars pfx sql.data start), nilIfEmpty args)

/-- `Format` (identical on `not`, `Condition` and `Clause` in
where_format.go): resolve the options, render, substitute placeholders
starting at 1. -/
def Format (e : Expression) (option : List FormatOption) : String × List Arg :=
  let ph := placeholderFromOptions option
  let r := doFormat (quoterFromOptions option) e
  replacePlaceholders r.1 r.2 ph.1 ph.2 1

/-- `String()` on any expression: no quotes, inlined values. -/
def exprString (e : Expression) : String :=
  (Format e [.NoQuotes, .Inline]).1

/-! ## Combinators (part_000 of the where package sources) -/

/-- The `and` / `or` conjunction constants. -/
def andConj : String := " AND "

def orConj : String := " OR "

/-- `NoOp()`: the empty clause `Clause{}`. -/
def NoOp : Expression := .clause [] ""

/-- `Not`: a Go `nil` argument maps to the no-op, otherwise wrap. -/
def Not (exp : Option Expression) : Expression :=
  match exp with
  | none => NoOp
  | some e => .negation e

/-- `Clause.conjoin`: the receiver clause is given by its fields
`wheres` / `conjunction`. Combining with another clause elides an empty
side and flattens equal conjunctions; combining with a non-clause appends
when the receiver's conjunction is blank (from `NoOp`) or already `conj`;
otherwise both sides become children of a fresh clause. -/
def conjoin (wheres : List Expression) (conjunction : String)
    (other : Expression) (conj : String) : Expression :=
  match other with
  | .clause cw cc =>
      if wheres.isEmpty then .clause cw cc
      else if cw.isEmpty then .clause wheres conjunction
      else if conjunction = conj ∧ cc = conj then .clause (wheres ++ cw) conj
      else .clause [.clause wheres conjunction, .clause cw cc] conj
  | o =>
      if conjunction = "" || conjunction = conj then .clause (wheres ++ [o]) conj
      else .clause [.clause wheres conjunction, o] conj

/-- The `.And` method: on a `Clause` it is `conjoin`; `Condition` and `not`
first wrap themselves as `Clause{wheres: [self], conjunction: and}`. -/
def Expression.And (e other : Expression) : Expression :=
  match e with
  | .clause ws c => conjoin ws c other andConj
  | x => conjoin [x] andConj other andConj

/-- The `.Or` method, symmetric to `Expression.And`. -/
def Expression.Or (e other : Expression) : Expression :=
  match e with
  | .clause ws c => conjoin ws c other orConj
  | x => conjoin [x] orConj other orConj

/-- One step of `newClause`'s filtering loop: drop a Go-`nil` entry and a
no-op (empty) clause, keep everything else. -/
def survStep (acc : List Expression) (e : Option Expression) : List Expression :=
  match e with
  | none => acc
  | some x =>
      match x with
      | .clause ws _ => if ws.isEmpty then acc else acc ++ [x]
      | _ => acc ++ [x]

/-- The filtering loop of `newClause`: drop Go-`nil` entries and no-op
(empty) clauses, keep everything else in order. -/
def survivors (exp : List (Option Expression)) : List Expression :=
  exp.foldl survStep []

/-- `newClause`: filter the arguments, and collapse a single survivor to
itself rather than wrapping it. -/
def newClause (conj : String) (exp : List (Option Expression)) : Expression :=
  match survivors exp with
  | [e] => e
  | ws => .clause ws conj

/-- The free function `And`. -/
def And (exp : List (Option Expression)) : Expression := newClause andConj exp

/-- The free function `Or`. -/
def Or (exp : List (Option Expression)) : Expression := newClause orConj exp

/-! ## Predicate factories (part_000) -/

/-- `Predicate(predicate, value...)`: a column-less condition. -/
def Predicate (predicate : String) (value : List Arg) : Expression :=
  .condition "" predicate value

/-- `Literal(column, predicate, value...)`. -/
def Literal (column predicate : String) (value : List Arg) : Expression :=
  .condition column predicate value

def Null (column : String) : Expression := Literal column " IS NULL" []

def NotNull (column : String) : Expression := Literal column " IS NOT NULL" []

def Eq (column : String) (value : Arg) : Expression := Literal column "=?" [value]

def NotEq (column : String) (value : Arg) : Expression := Literal column "<>?" [value]

def Gt (column : String) (value : Arg) : Expression := Literal column ">?" [value]

def GtEq (column : String) (value : Arg) : Expression := Literal column ">=?" [value]

def Lt (column : String) (value : Arg) : Expression := Literal column "<?" [value]

def LtEq (column : String) (value : Arg) : Expression := Literal column "<=?" [value]

def Between (column : String) (a b : Arg) : Expression :=
  Literal column " BETWEEN ? AND ?" [a, b]

def Like (column : String) (pattern : String) : Expression :=
  Literal column " LIKE ?" [.astr pattern]

/-- One step of `In`'s partitioning loop over the variadic values. State:
collected args, the has-null flag, the placeholder text inside `IN (`,
and the placeholder counter `i`. -/
def inStep (st : List Arg × Bool × String × Nat) (arg : Option Arg) :
    List Arg × Bool × String × Nat :=
  match arg with
  | none => (st.1, true, st.2.2.1, st.2.2.2)
  | some a =>
      (st.1 ++ [a], st.2.1,
        st.2.2.1 ++ (if st.2.2.2 > 0 then "," else "") ++ "?", st.2.2.2 + 1)

/-- `In(column, values...)` from part_000: no values is a no-op; nil values
set a flag instead of a placeholder; a non-empty placeholder list becomes
an `IN (...)` condition; the nil flag ORs an `IS NULL` condition on. -/
def In (column : String) (values : List (Option Arg)) : Expression :=
  if values.isEmpty then NoOp
  else
    let st := values.foldl inStep ([], false, "", 0)
    let result := if st.2.2.2 > 0 then Expression.condition column (" IN (" ++ st.2.2.1 ++ ")") st.1 else NoOp
    if st.2.1 then Or [some result, some (Null column)] else result

/-- A Go value passed to `InSlice`, as far as its reflection inspects it:
an array or slice of elements (`none` = a nil pointer/interface element),
or a non-collection scalar. -/
inductive GoVal where
  | slice (elems : List (Option Arg))
  | array (elems : List (Option Arg))
  | scalar (a : Arg)
deriving Repr

/-- The element loop shared with `In` but keyed on `len(v) > 0` for the
comma; nil elements set the null flag. -/
def inSliceStep (st : List Arg × Bool × String) (arg : Option Arg) :
    List Arg × Bool × String :=
  match arg with
  | none => (st.1, true, st.2.2)
  | some a =>
      (st.1 ++ [a], st.2.1, st.2.2 ++ (if st.1.length > 0 then "," else "") ++ "?")

/-- `InSlice(column, arg)`: nil is a no-op; a non-collection argument
panics (`Except.error`) at call time; arrays and slices are expanded
element-wise with the same null-OR-IN assembly as `In`. -/
def InSlice (column : String) (arg : Option GoVal) : Except String Expression :=
  match arg with
  | none => .ok NoOp
  | some (.scalar _) => .error "arg must be an array or slice"
  | some (.slice elems) | some (.array elems) =>
      let st := elems.foldl inSliceStep ([], false, "")
      let result := if st.1.length > 0 then Expression.condition column (" IN (" ++ st.2.2 ++ ")") st.1 else NoOp
      .ok (if st.2.1 then Or [some result, some (Null column)] else result)

/-! ## Query constraints (query_constraint.go builder, part_010 renderer) -/

/-- The direction / nulls-placement constants. -/
def unset : Nat := 0

def asc : Nat := 1

def desc : Nat := 2

def first : Nat := 3

def last : Nat := 4

/-- The `ascDesc` suffix table (index `unset` renders as ASC). -/
def ascDesc : List String := [" ASC", " ASC", " DESC", " FIRST", " LAST"]

structure OrderingTerm where
  column : String
  dir : Nat
deriving DecidableEq, Repr

structure QueryConstraint where
  orderBy : List OrderingTerm
  nulls : Nat
  limit : Int
  offset : Int
deriving DecidableEq, Repr

/-- `makeTerms`: fresh terms with direction `unset`. -/
def makeTerms (column : List String) : List OrderingTerm :=
  column.map (fun c => { column := c, dir := unset })

/-- The `OrderBy` method: previously unset terms default to `asc`, then the
new columns are appended with direction `unset`. -/
def QueryConstraint.OrderBy (qc : QueryConstraint) (column : List String) : QueryConstraint :=
  { qc with
    orderBy :=
      (qc.orderBy.map (fun t => if t.dir = unset then { t with dir := asc } else t))
        ++ makeTerms column }

/-- `setDir`'s loop, which runs from the end of the list and stops at the
first term whose direction is already set: phrased on the reversed list. -/
def setDirRev (dir : Nat) : List OrderingTerm → List OrderingTerm
  | [] => []
  | t :: rest =>
      if t.dir = unset then { t with dir := dir } :: setDirRev dir rest
      else t :: rest

/-- `setDir`: assign `dir` to the trailing run of unset terms. -/
def QueryConstraint.setDir (qc : QueryConstraint) (dir : Nat) : QueryConstraint :=
  { qc with orderBy := (setDirRev dir qc.orderBy.reverse).reverse }

def QueryConstraint.Asc (qc : QueryConstraint) : QueryConstraint := qc.setDir asc

def QueryConstraint.Desc (qc : QueryConstraint) : QueryConstraint := qc.setDir desc

def QueryConstraint.NullsFirst (qc : QueryConstraint) : QueryConstraint :=
  { qc with nulls := first }

def QueryConstraint.NullsLast (qc : QueryConstraint) : QueryConstraint :=
  { qc with nulls := last }

def QueryConstraint.Limit (qc : QueryConstraint) (n : Int) : QueryConstraint :=
  { qc with limit := n }

def QueryConstraint.Offset (qc : QueryConstraint) (n : Int) : QueryConstraint :=
  { qc with offset := n }

/-- The SQL dialects of dialect/dialect.go (v2). -/
inductive Dialect where
  | undefined | Sqlite | Mysql | Postgres | SqlServer
deriving DecidableEq, Repr

/-- `hasDesc`: the scan for any DESC term in `QueryConstraint.Format`. -/
def hasDesc (terms : List OrderingTerm) : Bool :=
  terms.any (fun t => t.dir == desc)

/-- The term loop of `QueryConstraint.Format`: separator `" "` before the
first term and `", "` before the rest; direction suffixes only when some
term is DESC. -/
def termsLoop (q : String → String) (hd : Bool) (sep : String) :
    List OrderingTerm → String
  | [] => ""
  | t :: rest =>
      sep ++ q t.column ++ (if hd then ascDesc.getD t.dir "" else "")
        ++ termsLoop q hd ", " rest

/-- The `NULLS FIRST` / `NULLS LAST` suffix switch. -/
def nullsPart (nulls : Nat) : String :=
  if nulls = first then " NULLS FIRST"
  else if nulls = last then " NULLS LAST"
  else ""

/-- The ORDER BY section of `QueryConstraint.Format` (part_010). -/
def orderByPart (q : String → String) (qc : QueryConstraint) : String :=
  if qc.orderBy.isEmpty then ""
  else " ORDER BY" ++ termsLoop q (hasDesc qc.orderBy) " " qc.orderBy
    ++ nullsPart qc.nulls

/-- `QueryConstraint.Format` (part_010): ORDER BY section, then LIMIT
(omitted when zero or for SQL-Server), then OFFSET (omitted when zero). -/
def QueryConstraint.Format (qc : QueryConstraint) (d : Dialect)
    (option : List FormatOption) : String :=
  orderByPart (quoterFromOptions option) qc
    ++ (if qc.limit > 0 ∧ d ≠ .SqlServer then " LIMIT " ++ toString qc.limit else "")
    ++ (if qc.offset > 0 then " OFFSET " ++ toString qc.offset else "")

/-- `QueryConstraint.FormatTOP` (part_010). -/
def QueryConstraint.FormatTOP (qc : QueryConstraint) (d : Dialect) : String :=
  if d ≠ .SqlServer ∨ qc.limit = 0 then ""
  else " TOP (" ++ toString qc.limit ++ ")"

/-! ## Specification-shaped auxiliary definitions

These definitions are used to state claims in a form independent of the
loops above: splitting a fragment at its placeholders, the expected
numbered interleaving, the comma-separated placeholder run of `In`, and
well-formedness of expression trees. -/

/-- Split a character list at each `?`, keeping the `?`-free pieces
(`N` placeholders give `N+1` pieces). -/
def splitQ : List Char → List String
  | [] => [""]
  | c :: rest =>
      if c = '?' then "" :: splitQ rest
      else
        match splitQ rest with
        | s :: ss => (String.singleton c ++ s) :: ss
        | [] => [String.singleton c]

/-- Interleave the pieces of a split fragment with numbered markers
`pfx ++ k`, `pfx ++ (k+1)`, … in increasing order. -/
def numberedJoin (pfx : String) (k : Nat) : List String → String
  | [] => ""
  | [s] => s
  | s :: rest => s ++ pfx ++ toString k ++ numberedJoin pfx (k + 1) rest

/-- The placeholder text accumulated by `In`'s loop for `k` further non-nil
values when the counter stands at `i`: a comma before every `?` except a
first one at counter zero. -/
def marks (i : Nat) : Nat → String
  | 0 => ""
  | k + 1 => (if i > 0 then ",?" else "?") ++ marks (i + 1) k

/-- Whether an expression is a `Clause` (Go's type assertion `e.(Clause)`). -/
def isClause : Expression → Bool
  | .clause _ _ => true
  | _ => false

/-- A quoter that introduces no placeholder characters on placeholder-free
input. All four quoters reachable from the format options satisfy this. -/
def QGood (q : String → String) : Prop :=
  ∀ s, countQ s = 0 → countQ (q s) = 0

/-- Well-formed expression trees: every condition has a placeholder-free
column and exactly as many `?` in its predicate as arguments, and every
clause's conjunction text is placeholder-free. The combinators preserve
this shape and the factories produce it (for placeholder-free columns and
matching `Literal` / `Predicate` templates). -/
inductive WF : Expression → Prop where
  | cond {col pred : String} {args : List Arg} :
      countQ col = 0 → countQ pred = args.length → WF (.condition col pred args)
  | neg {e : Expression} : WF e → WF (.negation e)
  | cls {ws : List Expression} {conj : String} :
      countQ conj = 0 → (∀ e ∈ ws, WF e) → WF (.clause ws conj)

/-- Expressions built from the predicate factories and combinators, with
the hypotheses the placeholder-count invariant needs: columns free of `?`,
and `Literal` / `Predicate` templates matching their argument counts. -/
inductive Built : Expression → Prop where
  | noop : Built NoOp
  | literal {col pred : String} {args : List Arg} :
      countQ col = 0 → countQ pred = args.length → Built (Literal col pred args)
  | rawPred {pred : String} {args : List Arg} :
      countQ pred = args.length → Built (Predicate pred args)
  | null {col : String} : countQ col = 0 → Built (Null col)
  | notNull {col : String} : countQ col = 0 → Built (NotNull col)
  | eq {col : String} {v : Arg} : countQ col = 0 → Built (Eq col v)
  | notEq {col : String} {v : Arg} : countQ col = 0 → Built (NotEq col v)
  | gt {col : String} {v : Arg} : countQ col = 0 → Built (Gt col v)
  | gtEq {col : String} {v : Arg} : countQ col = 0 → Built (GtEq col v)
  | lt {col : String} {v : Arg} : countQ col = 0 → Built (Lt col v)
  | ltEq {col : String} {v : Arg} : countQ col = 0 → Built (LtEq col v)
  | between {col : String} {a b : Arg} : countQ col = 0 → Built (Between col a b)
  | like {col pat : String} : countQ col = 0 → Built (Like col pat)
  | inList {col : String} {values : List (Option Arg)} :
      countQ col = 0 → Built (In col values)
  | notSome {e : Expression} : Built e → Built (Not (some e))
  | notNone : Built (Not none)
  | andFree {l : List (Option Expression)} :
      (∀ e, some e ∈ l → Built e) → Built (And l)
  | orFree {l : List (Option Expression)} :
      (∀ e, some e ∈ l → Built e) → Built (Or l)
  | andMeth {a b : Expression} : Built a → Built b → Built (a.And b)
  | orMeth {a b : Expression} : Built a → Built b → Built (a.Or b)

/-! ## Helper lemmas: strings and counting -/

theorem data_append (a b : String) : (a ++ b).data = a.data ++ b.data := rfl

theorem mk_append (a b : List Char) :
    String.mk a ++ String.mk b = String.mk (a ++ b) := rfl

theorem sappend_assoc (a b c : String) : a ++ b ++ c = a ++ (b ++ c) := by
  cases a
  cases b
  cases c
  simp [mk_append]

theorem countQ_append (a b : String) : countQ (a ++ b) = countQ a + countQ b := by
  simp [countQ, data_append, List.countP_append]

theorem countQ_empty : countQ "" = 0 := rfl

theorem string_eq_empty_iff (s : String) : s = "" ↔ s.data = [] := by
  cases s with
  | mk l =>
      constructor
      · intro h
        rw [h]
      · intro h
        simp only at h
        rw [h]

theorem append_eq_empty_iff (a b : String) : a ++ b = "" ↔ a = "" ∧ b = "" := by
  rw [string_eq_empty_iff, string_eq_empty_iff, string_eq_empty_iff, data_append,
    List.append_eq_nil]

theorem nilIfEmpty_eq (l : List Arg) : nilIfEmpty l = l := by
  unfold nilIfEmpty
  split
  · next h => rw [List.isEmpty_iff.mp h]
  · rfl

theorem countQ_joinStrings (sep : String) (hsep : countQ sep = 0) :
    ∀ l : List String, countQ (joinStrings sep l) = (l.map countQ).sum
  | [] => rfl
  | [s] => by simp [joinStrings]
  | s :: t :: rest => by
      have ih := countQ_joinStrings sep hsep (t :: rest)
      simp only [joinStrings, List.map, List.sum_cons, countQ_append, hsep] at *
      omega

theorem joinStrings_ne_empty (sep : String) :
    ∀ l : List String, l ≠ [] → (∀ s ∈ l, s ≠ "") → joinStrings sep l ≠ "" := by
  intro l
  match l with
  | [] => intro h; exact absurd rfl h
  | [s] =>
      intro _ hs
      simpa [joinStrings] using hs s (by simp)
  | s :: t :: rest =>
      intro _ hs
      simp only [joinStrings]
      rw [Ne, append_eq_empty_iff, append_eq_empty_iff]
      intro ⟨⟨h1, _⟩, _⟩
      exact hs s (by simp) h1

/-! ## Helper lemmas: survivors and newClause -/

theorem survStep_some (x : Expression) (hx : isClause x = false) (acc : List Expression) :
    survStep acc (some x) = acc ++ [x] := by
  cases x <;> simp_all [survStep, isClause]

theorem survivors_pair (a b : Expression) (ha : isClause a = false)
    (hb : isClause b = false) : survivors [some a, some b] = [a, b] := by
  simp [survivors, List.foldl, survStep_some _ ha, survStep_some _ hb]

theorem survivors_triple (a b c : Expression) (ha : isClause a = false)
    (hb : isClause b = false) (hc : isClause c = false) :
    survivors [some a, some b, some c] = [a, b, c] := by
  simp [survivors, List.foldl, survStep_some _ ha, survStep_some _ hb, survStep_some _ hc]

theorem newClause_single (conj : String) (exps : List (Option Expression))
    (e : Expression) (h : survivors exps = [e]) : newClause conj exps = e := by
  unfold newClause
  rw [h]

theorem newClause_multi (conj : String) (exps : List (Option Expression))
    (h : (survivors exps).length ≠ 1) :
    newClause conj exps = .clause (survivors exps) conj := by
  unfold newClause
  match hs : survivors exps with
  | [] => rfl
  | [e] => exact absurd (by rw [hs]; rfl) h
  | e₁ :: e₂ :: rest => rfl

theorem conjoin_nonclause (ws : List Expression) (c : String) (o : Expression)
    (conj : String) (ho : isClause o = false) (hc : c = "" ∨ c = conj) :
    conjoin ws c o conj = .clause (ws ++ [o]) conj := by
  cases o <;> simp_all [conjoin, isClause]

theorem and_free_two (a b : Expression) (ha : isClause a = false)
    (hb : isClause b = false) : And [some a, some b] = .clause [a, b] andConj := by
  rw [And, newClause_multi _ _ (by rw [survivors_pair a b ha hb]; simp),
    survivors_pair a b ha hb]

theorem and_free_three (a b c : Expression) (ha : isClause a = false)
    (hb : isClause b = false) (hc : isClause c = false) :
    And [some a, some b, some c] = .clause [a, b, c] andConj := by
  rw [And, newClause_multi _ _ (by rw [survivors_triple a b c ha hb hc]; simp),
    survivors_triple a b c ha hb hc]

theorem and_method_flatten (a b c : Expression) (ha : isClause a = false)
    (hb : isClause b = false) (hc : isClause c = false) :
    (And [some a, some b]).And c = And [some a, some b, some c] := by
  rw [and_free_two a b ha hb, and_free_three a b c ha hb hc]
  show conjoin [a, b] andConj c andConj = _
  rw [conjoin_nonclause [a, b] andConj c andConj hc (Or.inr rfl)]
  rfl

/-! ## Claim C1: flattening of the free-function combination -/

/-- C1 counterexample: with default options, the free-function combination
`And(And(a,b), c)` renders `((a=?) AND (b=?)) AND (c=?)` while `And(a,b,c)`
renders `(a=?) AND (b=?) AND (c=?)` — `newClause` keeps a non-empty inner
clause as a single child and does not flatten it. -/
theorem spec_c1_counterexample :
    Format (And [some (And [some (Eq "a" (.aint 1)), some (Eq "b" (.aint 2))]),
          some (Eq "c" (.aint 3))]) []
      ≠ Format (And [some (Eq "a" (.aint 1)), some (Eq "b" (.aint 2)),
          some (Eq "c" (.aint 3))]) [] := by
  decide

/-- C1 (amended): for non-Clause expressions a, b, c, the method combination
`And(a,b).And(c)` renders — with any options — identically to `And(a,b,c)`
(same parenthesization and argument order); the free-function combination
`And(And(a,b), c)` instead keeps the inner group as one parenthesised
child. -/
theorem spec_c1_flattening (a b c : Expression) (ha : isClause a = false)
    (hb : isClause b = false) (hc : isClause c = false)
    (opts : List FormatOption) :
    Format ((And [some a, some b]).And c) opts
      = Format (And [some a, some b, some c]) opts := by
  rw [and_method_flatten a b c ha hb hc]

/-- C1 witness: the amended flattening at concrete conditions. -/
theorem spec_c1_witness :
    (isClause (Eq "a" (.aint 1)) = false ∧ isClause (Eq "b" (.aint 2)) = false
      ∧ isClause (Eq "c" (.aint 3)) = false)
    ∧ Format ((And [some (Eq "a" (.aint 1)), some (Eq "b" (.aint 2))]).And
          (Eq "c" (.aint 3))) []
        = Format (And [some (Eq "a" (.aint 1)), some (Eq "b" (.aint 2)),
            some (Eq "c" (.aint 3))]) [] :=
  ⟨⟨rfl, rfl, rfl⟩,
    spec_c1_flattening (Eq "a" (.aint 1)) (Eq "b" (.aint 2)) (Eq "c" (.aint 3))
      rfl rfl rfl []⟩

/-! ## Claim C2: no one-child Clause from the combinators -/

/-- C2 counterexample: the instance method `NoOp().And(e)` returns a Clause
whose children are exactly `[e]` — one effective (non-empty-rendering)
child that is not returned directly. -/
theorem spec_c2_counterexample :
    NoOp.And (Eq "a" (.aint 1)) = .clause [Eq "a" (.aint 1)] andConj
    ∧ (doFormat quoteNone (Eq "a" (.aint 1))).1 ≠ "" := by
  exact ⟨rfl, by decide⟩

/-- C2 (amended): the free functions And/Or (via `newClause`) never wrap a
single surviving argument — after dropping nils and no-op clauses, one
survivor is returned directly, and otherwise the survivors become the
children of the new Clause; the instance methods lack this property. -/
theorem spec_c2_single_collapse (conj : String) (exps : List (Option Expression)) :
    (∀ e, survivors exps = [e] → newClause conj exps = e)
    ∧ ((survivors exps).length ≠ 1 →
        newClause conj exps = .clause (survivors exps) conj) :=
  ⟨newClause_single conj exps, newClause_multi conj exps⟩

/-- C2 witness: `Or(NoOp(), Eq("a",1))` collapses to the single survivor. -/
theorem spec_c2_witness :
    newClause orConj [some NoOp, some (Eq "a" (.aint 1))] = Eq "a" (.aint 1) :=
  (spec_c2_single_collapse orConj [some NoOp, some (Eq "a" (.aint 1))]).1
    (Eq "a" (.aint 1)) rfl

/-! ## Claim C3: inline literal rendering -/

/-- C3: at the failing input `Eq("name", "O'Brien")`, inline rendering
splices the string argument wrapped in single quotes but does NOT double
the embedded quote (the claimed output would be `name='O''Brien'`);
the argument is consumed. This matches the source's own
`// TODO replace ' with ''` remark in `literalValue`. -/
theorem spec_c3_no_quote_escaping :
    Format (Eq "name" (.astr "O'Brien")) [.NoQuotes, .Inline]
      = ("name='O'Brien'", [])
    ∧ Format (Eq "name" (.astr "O'Brien")) [.NoQuotes, .Inline]
      ≠ ("name='O''Brien'", []) := by
  decide

/-! ## Claim C9: InSlice guards -/

/-- C9: `InSlice` returns the no-op for a nil argument, fails at call time
(an error, never an expression) for a non-collection argument, and
succeeds on arrays and slices. -/
theorem spec_c9_inslice_guard (column : String) :
    InSlice column none = .ok NoOp
    ∧ (∀ a : Arg, InSlice column (some (.scalar a))
        = .error "arg must be an array or slice")
    ∧ (∀ elems, ∃ e, InSlice column (some (.slice elems)) = .ok e)
    ∧ (∀ elems, ∃ e, InSlice column (some (.array elems)) = .ok e) :=
  ⟨rfl, fun _ => rfl, fun _ => ⟨_, rfl⟩, fun _ => ⟨_, rfl⟩⟩

/-! ## Claim C6 counterexample: numbered substitution keeps the args -/

/-- C6 counterexample: numbered substitution of the spec's own round-trip
example returns the full argument list, not an empty one. -/
theorem spec_c6_counterexample :
    replacePlaceholders "(name=?) OR (name=?)" [.astr "Fred", .astr "John"]
        "$" false 1
      = ("(name=$1) OR (name=$2)", [.astr "Fred", .astr "John"])
    ∧ (replacePlaceholders "(name=?) OR (name=?)" [.astr "Fred", .astr "John"]
        "$" false 1).2 ≠ [] := by
  decide

/-! ## Claim C6 (amended): numbered substitution -/

theorem empty_sappend (s : String) : "" ++ s = s := by
  cases s
  rfl

theorem singleton_mk (c : Char) (l : List Char) :
    String.singleton c ++ String.mk l = String.mk (c :: l) := rfl

theorem mk_data_append (a : String) (l : List Char) :
    String.mk (a.data ++ l) = a ++ String.mk l := rfl

theorem splitQ_ne_nil : ∀ l : List Char, splitQ l ≠ []
  | [] => by simp [splitQ]
  | c :: rest => by
      simp only [splitQ]
      split
      · simp
      · split <;> simp

theorem splitQ_length : ∀ l : List Char,
    (splitQ l).length = l.countP (fun c => c == '?') + 1
  | [] => rfl
  | c :: rest => by
      have ih := splitQ_length rest
      simp only [splitQ]
      split
      · next hc =>
          subst hc
          simp [List.countP_cons, ih]
      · next hc =>
          match hs : splitQ rest with
          | s :: ss =>
              rw [hs] at ih
              simp only [List.length_cons] at ih ⊢
              rw [List.countP_cons, if_neg (by simpa using hc)]
              omega
          | [] => exact absurd hs (splitQ_ne_nil rest)

theorem replaceChars_eq (pfx : String) : ∀ (l : List Char) (start : Nat),
    String.mk (replaceChars pfx l start) = numberedJoin pfx start (splitQ l)
  | [], _ => rfl
  | c :: rest, start => by
      have ih := replaceChars_eq pfx rest
      obtain ⟨s, ss, hs⟩ : ∃ s ss, splitQ rest = s :: ss := by
        match h : splitQ rest with
        | [] => exact absurd h (splitQ_ne_nil rest)
        | s :: ss => exact ⟨s, ss, rfl⟩
      simp only [replaceChars, splitQ]
      split
      · rw [hs, List.append_assoc, mk_data_append, mk_data_append, ih (start + 1), hs]
        show _ = "" ++ _ ++ _ ++ _
        rw [empty_sappend, sappend_assoc]
      · rw [hs]
        cases ss with
        | nil =>
            show String.mk (c :: _) = _
            rw [← singleton_mk, ih start, hs]
            rfl
        | cons t ts =>
            show String.mk (c :: _) = String.singleton c ++ s ++ _ ++ _ ++ _
            rw [← singleton_mk, ih start, hs]
            show _ ++ (_ ++ _ ++ _ ++ _) = _
            rw [← sappend_assoc, ← sappend_assoc, ← sappend_assoc]

/-- C6 (amended): numbered substitution with marker `pfx` starting at `k`
replaces the `N` placeholders left to right by `pfx ++ k`, …,
`pfx ++ (k+N-1)` in increasing order (the fragment splits into `N+1`
placeholder-free pieces interleaved with exactly those markers); the
argument list is returned unchanged (`nil` when empty), not consumed. -/
theorem spec_c6_numbering (sql : String) (args : List Arg) (pfx : String)
    (start : Nat) (h : pfx ≠ "") :
    replacePlaceholders sql args pfx false start
      = (numberedJoin pfx start (splitQ sql.data), nilIfEmpty args)
    ∧ (splitQ sql.data).length = countQ sql + 1 := by
  refine ⟨?_, splitQ_length sql.data⟩
  unfold replacePlaceholders
  rw [if_neg (by simp), if_neg h, replaceChars_eq pfx sql.data start]

/-- C6 witness: the amended numbering at the round-trip example. -/
theorem spec_c6_witness :
    ("$" : String) ≠ ""
    ∧ replacePlaceholders "(name=?) OR (name=?)" [.astr "Fred", .astr "John"]
          "$" false 1
        = (numberedJoin "$" 1 (splitQ ("(name=?) OR (name=?)" : String).data),
            nilIfEmpty [.astr "Fred", .astr "John"]) :=
  ⟨by decide,
    (spec_c6_numbering "(name=?) OR (name=?)" [.astr "Fred", .astr "John"]
      "$" 1 (by decide)).1⟩

/-! ## Claim C10: inline substitution totality -/

theorem inlineChars_nil_args : ∀ l : List Char, inlineChars l [] = (l, [])
  | [] => rfl
  | c :: rest => by simp [inlineChars, inlineChars_nil_args rest]

theorem inlineChars_append : ∀ (xs ys : List Char) (args : List Arg),
    inlineChars (xs ++ ys) args
      = ((inlineChars xs args).1 ++ (inlineChars ys (inlineChars xs args).2).1,
          (inlineChars ys (inlineChars xs args).2).2)
  | [], ys, args => by simp [inlineChars]
  | x :: xs, ys, args => by
      match args with
      | [] => simp [inlineChars, inlineChars_append xs ys []]
      | a :: more =>
          by_cases hx : x = '?'
          · simp [inlineChars, hx, inlineChars_append xs ys more]
          · simp [inlineChars, hx, inlineChars_append xs ys (a :: more)]

theorem inlineChars_drop : ∀ (xs : List Char) (args : List Arg),
    (inlineChars xs args).2 = args.drop (xs.countP (fun c => c == '?'))
  | [], args => by simp [inlineChars]
  | x :: xs, args => by
      match args with
      | [] => simp [inlineChars_nil_args, List.drop_nil]
      | a :: more =>
          by_cases hx : x = '?'
          · simp [inlineChars, hx, inlineChars_drop xs more, List.countP_cons]
          · simp [inlineChars, hx, inlineChars_drop xs (a :: more),
              List.countP_cons]

/-- C10: inline substitution is total in both mismatch directions — when a
fragment `a` has exactly as many placeholders as there are arguments, any
suffix `b` (in particular one holding surplus `?`s) is emitted verbatim
after the substituted prefix, with no residual arguments; and surplus
arguments beyond a fragment\u0027s placeholder count are returned as the
residual list (`nil` when none are left over). -/
theorem spec_c10_inline_total (a b sql : String) (args args2 : List Arg)
    (h1 : countQ a = args.length) (h2 : countQ sql ≤ args2.length) :
    (inlinePlaceholders (a ++ b) args).1 = (inlinePlaceholders a args).1 ++ b
    ∧ (inlinePlaceholders (a ++ b) args).2 = []
    ∧ (inlinePlaceholders sql args2).2 = nilIfEmpty (args2.drop (countQ sql)) := by
  have hresid : (inlineChars a.data args).2 = [] := by
    rw [inlineChars_drop, ← countQ, h1, List.drop_length]
  refine ⟨?_, ?_, ?_⟩
  · show String.mk (inlineChars (a ++ b).data args).1
      = String.mk (inlineChars a.data args).1 ++ b
    rw [data_append, inlineChars_append, hresid, inlineChars_nil_args]
    rfl
  · show nilIfEmpty (inlineChars (a ++ b).data args).2 = []
    rw [data_append, inlineChars_append, hresid, inlineChars_nil_args]
    rfl
  · show nilIfEmpty (inlineChars sql.data args2).2
      = nilIfEmpty (args2.drop (countQ sql))
    rw [inlineChars_drop]
    rfl

/-- C10 witness: a fragment with three placeholders and one argument — the
two surplus placeholders pass through; and surplus arguments survive. -/
theorem spec_c10_witness :
    (countQ "x=?" = ([Arg.aint 5] : List Arg).length
      ∧ countQ "y=?" ≤ ([Arg.aint 7, Arg.aint 8] : List Arg).length)
    ∧ (inlinePlaceholders ("x=?" ++ " AND y IN (?,?)") [Arg.aint 5]).1
        = (inlinePlaceholders "x=?" [Arg.aint 5]).1 ++ " AND y IN (?,?)"
    ∧ (inlinePlaceholders ("x=?" ++ " AND y IN (?,?)") [Arg.aint 5]).2 = []
    ∧ (inlinePlaceholders "y=?" [Arg.aint 7, Arg.aint 8]).2
        = nilIfEmpty (([Arg.aint 7, Arg.aint 8] : List Arg).drop (countQ "y=?")) :=
  ⟨⟨by decide, by decide⟩,
    (spec_c10_inline_total "x=?" " AND y IN (?,?)" "y=?" [Arg.aint 5]
      [Arg.aint 7, Arg.aint 8] (by decide) (by decide))⟩

/-! ## Claim C4: the partitioning of In -/

theorem sappend_empty (s : String) : s ++ "" = s := by
  cases s with
  | mk l =>
      show String.mk (l ++ []) = String.mk l
      rw [List.append_nil]

theorem inX_eq (i : Nat) :
    ((if i > 0 then ("," : String) else "") ++ "?")
      = (if i > 0 then ",?" else "?") := by
  split <;> rfl

theorem in_fold : ∀ (values : List (Option Arg)) (args0 : List Arg)
    (hn0 : Bool) (buf0 : String) (i0 : Nat),
    values.foldl inStep (args0, hn0, buf0, i0)
      = (args0 ++ values.filterMap id, hn0 || values.any Option.isNone,
          buf0 ++ marks i0 (values.filterMap id).length,
          i0 + (values.filterMap id).length)
  | [], args0, hn0, buf0, i0 => by
      simp [marks, sappend_empty]
  | none :: rest, args0, hn0, buf0, i0 => by
      show List.foldl inStep (args0, true, buf0, i0) rest = _
      rw [in_fold rest args0 true buf0 i0]
      simp
  | some a :: rest, args0, hn0, buf0, i0 => by
      show List.foldl inStep
        (args0 ++ [a], hn0, buf0 ++ (if i0 > 0 then "," else "") ++ "?", i0 + 1)
        rest = _
      rw [in_fold rest (args0 ++ [a]) hn0
        (buf0 ++ (if i0 > 0 then "," else "") ++ "?") (i0 + 1)]
      have hfm : List.filterMap id (some a :: rest) = a :: List.filterMap id rest := rfl
      refine congrArg₂ Prod.mk ?_ (congrArg₂ Prod.mk ?_ (congrArg₂ Prod.mk ?_ ?_))
      · rw [hfm]
        simp
      · simp
      · rw [hfm, List.length_cons,
          show marks i0 ((rest.filterMap id).length + 1)
            = (if i0 > 0 then (",?" : String) else "?")
              ++ marks (i0 + 1) (rest.filterMap id).length from rfl,
          sappend_assoc (buf0 ++ (if i0 > 0 then "," else "")) "?",
          sappend_assoc buf0 (if i0 > 0 then "," else ""),
          ← sappend_assoc (if i0 > 0 then "," else "") "?", inX_eq]
      · rw [hfm, List.length_cons]
        omega

theorem marks_pos : ∀ (k i j : Nat), 0 < i → 0 < j → marks i k = marks j k
  | 0, _, _, _, _ => rfl
  | k + 1, i, j, hi, hj => by
      simp only [marks, if_pos hi, if_pos hj]
      rw [marks_pos k (i + 1) (j + 1) (by omega) (by omega)]

theorem join_rep_two (k : Nat) : joinStrings "," (List.replicate (k + 2) "?")
    = "?" ++ "," ++ joinStrings "," (List.replicate (k + 1) "?") := by
  show joinStrings "," ("?" :: "?" :: List.replicate k "?")
    = "?" ++ "," ++ joinStrings "," ("?" :: List.replicate k "?")
  simp [joinStrings]

theorem marks_one_join : ∀ k : Nat,
    marks 1 (k + 1) = "," ++ joinStrings "," (List.replicate (k + 1) "?")
  | 0 => by decide
  | k + 1 => by
      rw [show marks 1 (k + 2) = ",?" ++ marks 2 (k + 1) from rfl,
        marks_pos (k + 1) 2 1 (by omega) (by omega), marks_one_join k,
        join_rep_two k, ← sappend_assoc, ← sappend_assoc, ← sappend_assoc]
      rfl

theorem marks_zero_join : ∀ k : Nat,
    marks 0 k = joinStrings "," (List.replicate k "?")
  | 0 => rfl
  | 1 => by decide
  | k + 2 => by
      rw [show marks 0 (k + 2) = "?" ++ marks 1 (k + 1) from rfl,
        marks_one_join k, join_rep_two k, ← sappend_assoc]

theorem countQ_marks : ∀ (k i : Nat), countQ (marks i k) = k
  | 0, _ => rfl
  | k + 1, i => by
      rw [show marks i (k + 1)
          = (if i > 0 then (",?" : String) else "?") ++ marks (i + 1) k from rfl,
        countQ_append, countQ_marks k (i + 1)]
      split
      · rw [show countQ ",?" = 1 from rfl]
        omega
      · rw [show countQ "?" = 1 from rfl]
        omega

theorem survivors_in_or (c1 c2 p : String) (args : List Arg) :
    survivors [some (Expression.condition c1 p args), some (Null c2)]
      = [Expression.condition c1 p args, Null c2] :=
  survivors_pair _ _ rfl rfl

theorem survivors_noop_null (c2 : String) :
    survivors [some NoOp, some (Null c2)] = [Null c2] := rfl

/-- The full case analysis of `In`: no values at all is a no-op, otherwise
the non-nil values become one `?` each inside `IN (...)` and a nil value
ORs an `IS NULL` condition on (collapsing when the `IN` list is empty). -/
theorem In_eq (col : String) (values : List (Option Arg)) :
    In col values =
      if values.isEmpty then NoOp
      else
        if values.any Option.isNone then
          (if 0 < (values.filterMap id).length then
            .clause [Expression.condition col
              (" IN (" ++ marks 0 (values.filterMap id).length ++ ")")
              (values.filterMap id), Null col] orConj
          else Null col)
        else
          (if 0 < (values.filterMap id).length then
            Expression.condition col
              (" IN (" ++ marks 0 (values.filterMap id).length ++ ")")
              (values.filterMap id)
          else NoOp) := by
  unfold In
  split
  · rfl
  · simp only [in_fold values [] false "" 0, List.nil_append, Bool.false_or,
      empty_sappend, Nat.zero_add]
    by_cases hn : values.any Option.isNone
    · rw [if_pos hn, if_pos hn]
      by_cases hl : 0 < (values.filterMap id).length
      · rw [if_pos hl, if_pos hl]
        show Or _ = _
        have h2s := survivors_in_or col col
          (" IN (" ++ marks 0 (values.filterMap id).length ++ ")")
          (values.filterMap id)
        rw [Or, newClause_multi orConj
          [some (Expression.condition col
            (" IN (" ++ marks 0 (values.filterMap id).length ++ ")")
            (values.filterMap id)), some (Null col)] (by rw [h2s]; simp), h2s]
      · rw [if_neg hl, if_neg hl]
        show Or _ = _
        rw [Or, newClause_single orConj [some NoOp, some (Null col)] (Null col)
          (survivors_noop_null col)]
    · rw [if_neg hn, if_neg hn]

/-- C4: `In` partitions its values — no values at all is a no-op; all-nil
values yield `Null(column)` alone (no IN fragment); mixed values yield
`Or(IN-condition, Null(column))` with one `?` per non-nil value, rendering
inlined as `(age IN (1,2)) OR (age IS NULL)` for the spec's example; and
all-non-nil values yield the bare IN condition. -/
theorem spec_c4_in_partition (col : String) (values : List (Option Arg)) :
    In col ([] : List (Option Arg)) = NoOp
    ∧ (values ≠ [] → (∀ v ∈ values, v = none) → In col values = Null col)
    ∧ ((∃ a, some a ∈ values) → none ∈ values →
        In col values = .clause
          [Expression.condition col
            (" IN (" ++ joinStrings ","
              (List.replicate (values.filterMap id).length "?") ++ ")")
            (values.filterMap id), Null col] orConj)
    ∧ (values ≠ [] → none ∉ values →
        In col values = Expression.condition col
          (" IN (" ++ joinStrings ","
            (List.replicate (values.filterMap id).length "?") ++ ")")
          (values.filterMap id))
    ∧ exprString (In "age" [some (.aint 1), none, some (.aint 2), none])
        = "(age IN (1,2)) OR (age IS NULL)" := by
  refine ⟨rfl, ?_, ?_, ?_, by decide⟩
  · intro hne hall
    have hany : values.any Option.isNone = true := by
      obtain ⟨v, L, hvl⟩ := List.exists_cons_of_ne_nil hne
      subst hvl
      simp [hall v (by simp)]
    have hfm : values.filterMap id = [] :=
      List.filterMap_eq_nil_iff.mpr (fun v hv => hall v hv)
    rw [In_eq, if_neg (by simpa using hne), if_pos hany,
      if_neg (by rw [hfm]; simp)]
  · intro hex hnone
    obtain ⟨a, ha⟩ := hex
    have hlen : 0 < (values.filterMap id).length := by
      have : a ∈ values.filterMap id := List.mem_filterMap.mpr ⟨some a, ha, rfl⟩
      exact List.length_pos.mpr (List.ne_nil_of_mem this)
    have hne : values ≠ [] := List.ne_nil_of_mem hnone
    rw [In_eq, if_neg (by simpa using hne),
      if_pos (List.any_eq_true.mpr ⟨none, hnone, rfl⟩), if_pos hlen,
      marks_zero_join]
  · intro hne hnone
    have hany : values.any Option.isNone = false := by
      rw [List.any_eq_false]
      intro x hx
      cases x with
      | none => exact absurd hx hnone
      | some _ => simp
    obtain ⟨v, rest, hvl⟩ := List.exists_cons_of_ne_nil hne
    have hsome : ∃ a, some a ∈ values := by
      cases v with
      | none =>
          refine absurd ?_ hnone
          rw [hvl]
          exact List.mem_cons_self _ _
      | some a =>
          refine ⟨a, ?_⟩
          rw [hvl]
          exact List.mem_cons_self _ _
    obtain ⟨a, ha⟩ := hsome
    have hlen : 0 < (values.filterMap id).length := by
      have : a ∈ values.filterMap id := List.mem_filterMap.mpr ⟨some a, ha, rfl⟩
      exact List.length_pos.mpr (List.ne_nil_of_mem this)
    rw [In_eq, if_neg (by simpa using hne), if_neg (by rw [hany]; simp),
      if_pos hlen, marks_zero_join]

/-- C4 witness: the partitioning applied at the mixed example
`In("age", 1, nil, 2, nil)`. -/
theorem spec_c4_witness :
    In "age" [some (.aint 1), none, some (.aint 2), none]
      = .clause
          [Expression.condition "age"
            (" IN (" ++ joinStrings ","
              (List.replicate
                (([some (Arg.aint 1), none, some (Arg.aint 2), none].filterMap
                  id).length) "?") ++ ")")
            ([some (Arg.aint 1), none, some (Arg.aint 2), none].filterMap id),
            Null "age"] orConj :=
  (spec_c4_in_partition "age"
    [some (.aint 1), none, some (.aint 2), none]).2.2.1
    ⟨Arg.aint 1, by simp⟩ (by simp)

/-! ## Claim C8: direction assignment on the trailing unset run -/

theorem setDirRev_eq (dir : Nat) : ∀ l : List OrderingTerm,
    setDirRev dir l
      = (l.takeWhile (fun t => t.dir == unset)).map (fun t => { t with dir := dir })
        ++ l.dropWhile (fun t => t.dir == unset)
  | [] => rfl
  | t :: rest => by
      by_cases h : t.dir = unset
      · simp only [setDirRev, if_pos h, List.takeWhile_cons, List.dropWhile_cons,
          h, beq_self_eq_true, if_pos, List.map_cons, List.cons_append]
        rw [setDirRev_eq dir rest]
      · have hb : (t.dir == unset) = false := by simpa using h
        simp [setDirRev, if_neg h, List.takeWhile_cons, List.dropWhile_cons, hb]

theorem dropWhile_head_not {α : Type} (p : α → Bool) :
    ∀ (l : List α) (x : α), (l.dropWhile p).head? = some x → p x = false
  | [], x => by simp [List.dropWhile]
  | a :: rest, x => by
      cases hp : p a with
      | true =>
          rw [List.dropWhile_cons, if_pos (by rw [hp])]
          exact dropWhile_head_not p rest x
      | false =>
          rw [List.dropWhile_cons, if_neg (by rw [hp]; simp)]
          intro he
          simp only [List.head?_cons, Option.some.injEq] at he
          rw [he] at hp
          exact hp

/-- C8: `Asc()` / `Desc()` (via `setDir`) assign their direction to exactly
the maximal trailing run of ordering terms with unset direction, leaving
every already-directed term and all other builder fields unchanged; a
subsequent `OrderBy` first defaults all still-unset terms to ASC and then
appends the new columns with unset direction, leaving the other fields
unchanged. -/
theorem spec_c8_trailing_run (qc : QueryConstraint) (dir : Nat)
    (cols : List String) :
    (qc.Asc = qc.setDir asc ∧ qc.Desc = qc.setDir desc)
    ∧ qc.orderBy
        = (qc.orderBy.reverse.dropWhile (fun t => t.dir == unset)).reverse
          ++ (qc.orderBy.reverse.takeWhile (fun t => t.dir == unset)).reverse
    ∧ (∀ t ∈ (qc.orderBy.reverse.takeWhile (fun t => t.dir == unset)).reverse,
        t.dir = unset)
    ∧ (∀ t, ((qc.orderBy.reverse.dropWhile (fun t => t.dir == unset)).reverse).getLast?
          = some t → t.dir ≠ unset)
    ∧ (qc.setDir dir).orderBy
        = (qc.orderBy.reverse.dropWhile (fun t => t.dir == unset)).reverse
          ++ ((qc.orderBy.reverse.takeWhile (fun t => t.dir == unset)).reverse).map
              (fun t => { t with dir := dir })
    ∧ (qc.setDir dir).nulls = qc.nulls
    ∧ (qc.setDir dir).limit = qc.limit
    ∧ (qc.setDir dir).offset = qc.offset
    ∧ (qc.OrderBy cols).orderBy
        = qc.orderBy.map (fun t => if t.dir = unset then { t with dir := asc } else t)
          ++ makeTerms cols
    ∧ (qc.OrderBy cols).nulls = qc.nulls
    ∧ (qc.OrderBy cols).limit = qc.limit
    ∧ (qc.OrderBy cols).offset = qc.offset := by
  refine ⟨⟨rfl, rfl⟩, ?_, ?_, ?_, ?_, rfl, rfl, rfl, rfl, rfl, rfl, rfl⟩
  · rw [← List.reverse_append, List.takeWhile_append_dropWhile, List.reverse_reverse]
  · intro t ht
    have := List.mem_takeWhile_imp (List.mem_reverse.mp ht)
    simpa using this
  · intro t ht
    rw [List.getLast?_reverse] at ht
    have := dropWhile_head_not (fun t => t.dir == unset) qc.orderBy.reverse t ht
    simpa using this
  · show (setDirRev dir qc.orderBy.reverse).reverse = _
    rw [setDirRev_eq dir qc.orderBy.reverse, List.reverse_append,
      List.map_reverse]

/-- C8 witness: the trailing-run assignment at a concrete builder state
with one directed and one unset term. -/
theorem spec_c8_witness :
    (QueryConstraint.setDir ⟨[⟨"a", desc⟩, ⟨"b", unset⟩], 0, 0, 0⟩ asc).orderBy
      = (([⟨"a", desc⟩, ⟨"b", unset⟩] : List OrderingTerm).reverse.dropWhile
          (fun t => t.dir == unset)).reverse
        ++ ((([⟨"a", desc⟩, ⟨"b", unset⟩] : List OrderingTerm).reverse.takeWhile
          (fun t => t.dir == unset)).reverse).map (fun t => { t with dir := asc }) :=
  (spec_c8_trailing_run ⟨[⟨"a", desc⟩, ⟨"b", unset⟩], 0, 0, 0⟩ asc []).2.2.2.2.1

/-! ## Claim C7: direction suffix emission -/

theorem termsLoop_join (q : String → String) (hd : Bool) :
    ∀ (ts : List OrderingTerm) (sep : String), ts ≠ [] →
      termsLoop q hd sep ts
        = sep ++ joinStrings ", "
            (ts.map (fun t =>
              q t.column ++ (if hd then ascDesc.getD t.dir "" else "")))
  | [], _, h => absurd rfl h
  | [t], sep, _ => by
      simp [termsLoop, joinStrings, sappend_empty, sappend_assoc]
  | t :: t2 :: rest, sep, _ => by
      rw [show termsLoop q hd sep (t :: t2 :: rest)
          = sep ++ q t.column ++ (if hd then ascDesc.getD t.dir "" else "")
            ++ termsLoop q hd ", " (t2 :: rest) from rfl,
        termsLoop_join q hd (t2 :: rest) ", " (by simp)]
      simp only [List.map_cons]
      rw [show joinStrings ", "
            ((q t.column ++ (if hd then ascDesc.getD t.dir "" else ""))
              :: (q t2.column ++ (if hd then ascDesc.getD t2.dir "" else ""))
              :: rest.map (fun t =>
                  q t.column ++ (if hd then ascDesc.getD t.dir "" else "")))
          = (q t.column ++ (if hd then ascDesc.getD t.dir "" else "")) ++ ", "
            ++ joinStrings ", "
              ((q t2.column ++ (if hd then ascDesc.getD t2.dir "" else ""))
                :: rest.map (fun t =>
                    q t.column ++ (if hd then ascDesc.getD t.dir "" else "")))
          from rfl]
      simp [sappend_assoc]

/-- C7: with a non-empty ordering-term list (directions among unset, ASC,
DESC), if no term is DESC no direction suffix is emitted at all, and if at
least one term is DESC, every term gets an explicit suffix — DESC for DESC
terms, ASC for ASC and unset terms alike. -/
theorem spec_c7_direction_suffixes (qc : QueryConstraint) (d : Dialect)
    (opts : List FormatOption) (hne : qc.orderBy ≠ [])
    (hdirs : ∀ t ∈ qc.orderBy, t.dir ≤ 2) :
    ((∀ t ∈ qc.orderBy, t.dir ≠ desc) →
      QueryConstraint.Format qc d opts
        = " ORDER BY " ++ joinStrings ", "
            (qc.orderBy.map (fun t => quoterFromOptions opts t.column))
          ++ nullsPart qc.nulls
          ++ (if qc.limit > 0 ∧ d ≠ .SqlServer
              then " LIMIT " ++ toString qc.limit else "")
          ++ (if qc.offset > 0 then " OFFSET " ++ toString qc.offset else ""))
    ∧ ((∃ t ∈ qc.orderBy, t.dir = desc) →
      QueryConstraint.Format qc d opts
        = " ORDER BY " ++ joinStrings ", "
            (qc.orderBy.map (fun t => quoterFromOptions opts t.column
              ++ (if t.dir = desc then " DESC" else " ASC")))
          ++ nullsPart qc.nulls
          ++ (if qc.limit > 0 ∧ d ≠ .SqlServer
              then " LIMIT " ++ toString qc.limit else "")
          ++ (if qc.offset > 0 then " OFFSET " ++ toString qc.offset else "")) := by
  constructor
  · intro h
    have hhd : hasDesc qc.orderBy = false := by
      rw [hasDesc, List.any_eq_false]
      intro t ht
      simpa using h t ht
    show orderByPart (quoterFromOptions opts) qc ++ _ ++ _ = _
    refine congrArg₂ (· ++ ·) (congrArg₂ (· ++ ·) ?_ rfl) rfl
    rw [orderByPart, if_neg (by simpa using hne), hhd,
      termsLoop_join (quoterFromOptions opts) false qc.orderBy " " hne]
    rw [List.map_congr_left (fun t _ => by
      rw [if_neg (by simp), sappend_empty] :
      ∀ t ∈ qc.orderBy,
        quoterFromOptions opts t.column ++ (if false then ascDesc.getD t.dir "" else "")
          = quoterFromOptions opts t.column)]
    refine congrArg₂ (· ++ ·) ?_ rfl
    rw [← sappend_assoc]
    rfl
  · intro h
    obtain ⟨td, htd, hdd⟩ := h
    have hhd : hasDesc qc.orderBy = true := by
      rw [hasDesc, List.any_eq_true]
      exact ⟨td, htd, by simp [hdd]⟩
    show orderByPart (quoterFromOptions opts) qc ++ _ ++ _ = _
    refine congrArg₂ (· ++ ·) (congrArg₂ (· ++ ·) ?_ rfl) rfl
    rw [orderByPart, if_neg (by simpa using hne), hhd,
      termsLoop_join (quoterFromOptions opts) true qc.orderBy " " hne]
    rw [List.map_congr_left (fun t ht => by
      rw [if_pos rfl]
      have h2 : t.dir = 0 ∨ t.dir = 1 ∨ t.dir = 2 := by
        have := hdirs t ht
        omega
      rcases h2 with h2 | h2 | h2 <;> rw [h2] <;> rfl :
      ∀ t ∈ qc.orderBy,
        quoterFromOptions opts t.column ++ (if true then ascDesc.getD t.dir "" else "")
          = quoterFromOptions opts t.column
            ++ (if t.dir = desc then " DESC" else " ASC"))]
    refine congrArg₂ (· ++ ·) ?_ rfl
    rw [← sappend_assoc]
    rfl

/-- C7 witness: the suffix rule at a two-term constraint with one unset and
one DESC term, rendered for Sqlite with no options. -/
theorem spec_c7_witness :
    (([⟨"foo", unset⟩, ⟨"bar", desc⟩] : List OrderingTerm) ≠ []
      ∧ ∀ t ∈ ([⟨"foo", unset⟩, ⟨"bar", desc⟩] : List OrderingTerm), t.dir ≤ 2)
    ∧ QueryConstraint.Format ⟨[⟨"foo", unset⟩, ⟨"bar", desc⟩], 0, 0, 0⟩ .Sqlite []
        = " ORDER BY " ++ joinStrings ", "
            (([⟨"foo", unset⟩, ⟨"bar", desc⟩] : List OrderingTerm).map
              (fun t => quoterFromOptions [] t.column
                ++ (if t.dir = desc then " DESC" else " ASC")))
          ++ nullsPart 0
          ++ (if (0 : Int) > 0 ∧ Dialect.Sqlite ≠ Dialect.SqlServer
              then " LIMIT " ++ toString (0 : Int) else "")
          ++ (if (0 : Int) > 0 then " OFFSET " ++ toString (0 : Int) else "") :=
  ⟨⟨by simp, by decide⟩,
    (spec_c7_direction_suffixes ⟨[⟨"foo", unset⟩, ⟨"bar", desc⟩], 0, 0, 0⟩
      .Sqlite [] (by simp) (by decide)).2 ⟨⟨"bar", desc⟩, by simp, rfl⟩⟩

/-! ## Claim C5: the placeholder-count invariant -/

theorem qgood_none : QGood quoteNone := fun _ h => h

theorem valid_no_q (n : String) (hv : validIdentifier n = true) : countQ n = 0 := by
  unfold validIdentifier at hv
  unfold countQ
  match hd : n.data with
  | [] => rfl
  | c :: rest =>
      rw [hd] at hv
      simp only [Bool.and_eq_true] at hv
      rw [List.countP_eq_zero]
      intro a ha
      rcases List.mem_cons.mp ha with h1 | h2
      · subst h1
        intro hq
        have : a = '?' := by simpa using hq
        subst this
        simp at hv
      · have := (List.all_eq_true.mp hv.2) a h2
        intro hq
        have ha' : a = '?' := by simpa using hq
        subst ha'
        simp [validIdentChar] at this

theorem qgood_quoteBBA (before between after : String) (hb : countQ before = 0)
    (hm : countQ between = 0) (ha : countQ after = 0) :
    QGood (quoteBBA before between after) := by
  intro s hs
  unfold quoteBBA
  split
  · rfl
  · show countQ (if (s.splitOn ".").all validIdentifier = true
        then before ++ joinStrings between (s.splitOn ".") ++ after else s) = 0
    split
    · next hall =>
        rw [countQ_append, countQ_append, hb, ha,
          countQ_joinStrings between hm (s.splitOn ".")]
        have : ∀ x ∈ (s.splitOn ".").map countQ, x = 0 := by
          intro x hx
          obtain ⟨nm, hnm, hxe⟩ := List.mem_map.mp hx
          rw [← hxe]
          exact valid_no_q nm ((List.all_eq_true.mp hall) nm hnm)
        rw [List.sum_eq_zero this]
        rfl
    · exact hs

theorem qgood_quoterFromOptions (opts : List FormatOption) :
    QGood (quoterFromOptions opts) := by
  unfold quoterFromOptions
  have step : ∀ (rest : List FormatOption) (q0 : String → String), QGood q0 →
      QGood (rest.foldl (fun quoter o =>
        match o with
        | .NoQuotes => quoteNone
        | .ANSIQuotes => quoteANSI
        | .Backticks => quoteBackticks
        | .SquareBrackets => quoteSquareBrackets
        | _ => quoter) q0) := by
    intro rest
    induction rest with
    | nil => intro q0 h; exact h
    | cons o os ih =>
        intro q0 h
        refine ih _ ?_
        cases o
        case NoQuotes => exact qgood_none
        case ANSIQuotes => exact qgood_quoteBBA _ _ _ rfl rfl rfl
        case Backticks => exact qgood_quoteBBA _ _ _ rfl rfl rfl
        case SquareBrackets => exact qgood_quoteBBA _ _ _ rfl rfl rfl
        all_goals exact h
  exact step opts quoteNone qgood_none

theorem doFormatList_ok (q : String → String) :
    ∀ ws : List Expression,
      (∀ e ∈ ws, countQ (doFormat q e).1 = (doFormat q e).2.length
        ∧ ((doFormat q e).1 = "" → (doFormat q e).2 = [])) →
      ((doFormatList q ws).1.map countQ).sum = (doFormatList q ws).2.length
      ∧ (∀ s ∈ (doFormatList q ws).1, s ≠ "")
      ∧ ((doFormatList q ws).1 = [] → (doFormatList q ws).2 = [])
  | [], _ => by simp [doFormatList]
  | w :: rest, h => by
      have hw := h w (by simp)
      have ih := doFormatList_ok q rest (fun e he => h e (by simp [he]))
      simp only [doFormatList]
      split
      · next hpos =>
          refine ⟨?_, ?_, ?_⟩
          · simp only [List.map_cons, List.sum_cons, List.length_append]
            rw [countQ_append, countQ_append,
              show countQ "(" = 0 from rfl, show countQ ")" = 0 from rfl,
              hw.1, ih.1]
            omega
          · intro s hs
            rcases List.mem_cons.mp hs with h1 | h2
            · subst h1
              rw [Ne, append_eq_empty_iff]
              intro ⟨h3, _⟩
              rw [append_eq_empty_iff] at h3
              exact absurd h3.1 (by decide)
            · exact ih.2.1 s h2
          · intro hnil
            simp at hnil
      · next hpos =>
          exact ih

theorem wf_fmtOK (q : String → String) (hq : QGood q) :
    ∀ {e : Expression}, WF e →
      countQ (doFormat q e).1 = (doFormat q e).2.length
      ∧ ((doFormat q e).1 = "" → (doFormat q e).2 = []) := by
  intro e hwf
  induction hwf with
  | cond hcol hpred =>
      constructor
      · show countQ (q _ ++ _) = (nilIfEmpty _).length
        rw [countQ_append, hq _ hcol, nilIfEmpty_eq, hpred]
        omega
      · intro hempty
        show nilIfEmpty _ = []
        have h2 := (append_eq_empty_iff _ _).mp hempty |>.2
        rw [nilIfEmpty_eq]
        refine List.length_eq_zero.mp ?_
        rw [← hpred, h2]
        rfl
  | neg hwfe ih =>
      rename_i e2
      simp only [doFormat]
      split
      · next hempty =>
          exact ⟨by rw [ih.2 hempty]; rfl, fun _ => ih.2 hempty⟩
      · next hempty =>
          refine ⟨?_, ?_⟩
          · show countQ ("NOT (" ++ (doFormat q e2).1 ++ ")")
              = (doFormat q e2).2.length
            rw [countQ_append, countQ_append, show countQ "NOT (" = 0 from rfl,
              show countQ ")" = 0 from rfl, ih.1]
            omega
          · intro habs
            rw [append_eq_empty_iff, append_eq_empty_iff] at habs
            exact absurd habs.1.1 (by decide)
  | cls hconj hmem ih =>
      rename_i ws conj
      match ws with
      | [] => exact ⟨rfl, fun _ => rfl⟩
      | w :: rest =>
          have hlist := doFormatList_ok q (w :: rest) (fun e he => ih e he)
          show countQ (joinStrings conj (doFormatList q (w :: rest)).1)
              = (doFormatList q (w :: rest)).2.length
            ∧ (joinStrings conj (doFormatList q (w :: rest)).1 = ""
                → (doFormatList q (w :: rest)).2 = [])
          refine ⟨?_, ?_⟩
          · rw [countQ_joinStrings conj hconj, hlist.1]
          · intro hempty
            refine hlist.2.2 ?_
            by_contra hne
            exact joinStrings_ne_empty conj _ hne hlist.2.1 hempty

theorem foldl_survStep_mem :
    ∀ (exp : List (Option Expression)) (acc : List Expression) (x : Expression),
      x ∈ exp.foldl survStep acc → x ∈ acc ∨ some x ∈ exp
  | [], acc, x => fun h => Or.inl h
  | e :: rest, acc, x => fun h => by
      rcases foldl_survStep_mem rest (survStep acc e) x h with h1 | h2
      · match e with
        | none =>
            simp only [survStep] at h1
            exact Or.inl h1
        | some (.condition c p a) =>
            simp only [survStep] at h1
            rcases List.mem_append.mp h1 with h3 | h3
            · exact Or.inl h3
            · simp only [List.mem_singleton] at h3
              subst h3
              exact Or.inr (by simp)
        | some (.negation e2) =>
            simp only [survStep] at h1
            rcases List.mem_append.mp h1 with h3 | h3
            · exact Or.inl h3
            · simp only [List.mem_singleton] at h3
              subst h3
              exact Or.inr (by simp)
        | some (.clause ws c) =>
            simp only [survStep] at h1
            by_cases hw : ws.isEmpty
            · rw [if_pos hw] at h1
              exact Or.inl h1
            · rw [if_neg hw] at h1
              rcases List.mem_append.mp h1 with h3 | h3
              · exact Or.inl h3
              · simp only [List.mem_singleton] at h3
                subst h3
                exact Or.inr (by simp)
      · exact Or.inr (List.mem_cons_of_mem e h2)

theorem survivors_mem (exp : List (Option Expression)) (x : Expression)
    (h : x ∈ survivors exp) : some x ∈ exp := by
  rcases foldl_survStep_mem exp [] x h with h1 | h2
  · simp at h1
  · exact h2

theorem newClause_wf (conj : String) (hc : countQ conj = 0)
    (exp : List (Option Expression)) (hmem : ∀ x, some x ∈ exp → WF x) :
    WF (newClause conj exp) := by
  unfold newClause
  split
  · next e heq =>
      exact hmem e (survivors_mem exp e (by rw [heq]; simp))
  · next heq =>
      exact WF.cls hc (fun x hx => hmem x (survivors_mem exp x hx))

theorem conjoin_wf (ws : List Expression) (c : String) (other : Expression)
    (conj : String) (hc : countQ c = 0) (hconj : countQ conj = 0)
    (hws : ∀ x ∈ ws, WF x) (hother : WF other) :
    WF (conjoin ws c other conj) := by
  have hself : WF (Expression.clause ws c) := WF.cls hc hws
  cases other with
  | clause cw cc =>
      have hcc : countQ cc = 0 := by cases hother; assumption
      have hcw : ∀ x ∈ cw, WF x := by cases hother; assumption
      simp only [conjoin]
      split_ifs with h1 h2 h3
      · exact WF.cls hcc hcw
      · exact hself
      · refine WF.cls hconj (fun x hx => ?_)
        rcases List.mem_append.mp hx with h4 | h4
        · exact hws x h4
        · exact hcw x h4
      · refine WF.cls hconj (fun x hx => ?_)
        rcases List.mem_cons.mp hx with h4 | h4
        · subst h4
          exact hself
        · simp only [List.mem_singleton] at h4
          subst h4
          exact WF.cls hcc hcw
  | condition cc pp aa =>
      simp only [conjoin]
      split_ifs with h1
      · refine WF.cls hconj (fun x hx => ?_)
        rcases List.mem_append.mp hx with h4 | h4
        · exact hws x h4
        · simp only [List.mem_singleton] at h4
          subst h4
          exact hother
      · refine WF.cls hconj (fun x hx => ?_)
        rcases List.mem_cons.mp hx with h4 | h4
        · subst h4
          exact hself
        · simp only [List.mem_singleton] at h4
          subst h4
          exact hother
  | negation e2 =>
      simp only [conjoin]
      split_ifs with h1
      · refine WF.cls hconj (fun x hx => ?_)
        rcases List.mem_append.mp hx with h4 | h4
        · exact hws x h4
        · simp only [List.mem_singleton] at h4
          subst h4
          exact hother
      · refine WF.cls hconj (fun x hx => ?_)
        rcases List.mem_cons.mp hx with h4 | h4
        · subst h4
          exact hself
        · simp only [List.mem_singleton] at h4
          subst h4
          exact hother

theorem and_method_wf {a b : Expression} (ha : WF a) (hb : WF b) :
    WF (a.And b) := by
  unfold Expression.And
  match a with
  | .clause ws c =>
      have hc : countQ c = 0 := by cases ha; assumption
      have hws : ∀ x ∈ ws, WF x := by cases ha; assumption
      exact conjoin_wf ws c b andConj hc rfl hws hb
  | .condition cc pp aa =>
      exact conjoin_wf [.condition cc pp aa] andConj b andConj rfl rfl
        (fun x hx => by
          simp only [List.mem_singleton] at hx
          subst hx
          exact ha) hb
  | .negation e2 =>
      exact conjoin_wf [.negation e2] andConj b andConj rfl rfl
        (fun x hx => by
          simp only [List.mem_singleton] at hx
          subst hx
          exact ha) hb

theorem or_method_wf {a b : Expression} (ha : WF a) (hb : WF b) :
    WF (a.Or b) := by
  unfold Expression.Or
  match a with
  | .clause ws c =>
      have hc : countQ c = 0 := by cases ha; assumption
      have hws : ∀ x ∈ ws, WF x := by cases ha; assumption
      exact conjoin_wf ws c b orConj hc rfl hws hb
  | .condition cc pp aa =>
      exact conjoin_wf [.condition cc pp aa] orConj b orConj rfl rfl
        (fun x hx => by
          simp only [List.mem_singleton] at hx
          subst hx
          exact ha) hb
  | .negation e2 =>
      exact conjoin_wf [.negation e2] orConj b orConj rfl rfl
        (fun x hx => by
          simp only [List.mem_singleton] at hx
          subst hx
          exact ha) hb

theorem in_wf (col : String) (values : List (Option Arg))
    (hcol : countQ col = 0) : WF (In col values) := by
  rw [In_eq]
  have hwf_noop : WF NoOp := WF.cls rfl (by simp [NoOp])
  have hwf_null : WF (Null col) := WF.cond hcol rfl
  have hwf_cond : WF (Expression.condition col
      (" IN (" ++ marks 0 (values.filterMap id).length ++ ")")
      (values.filterMap id)) := by
    refine WF.cond hcol ?_
    rw [countQ_append, countQ_append, show countQ " IN (" = 0 from rfl,
      show countQ ")" = 0 from rfl,
      countQ_marks (values.filterMap id).length 0]
    omega
  split
  · exact hwf_noop
  · split
    · split
      · refine WF.cls rfl (fun x hx => ?_)
        rcases List.mem_cons.mp hx with h1 | h1
        · subst h1
          exact hwf_cond
        · simp only [List.mem_singleton] at h1
          subst h1
          exact hwf_null
      · exact hwf_null
    · split
      · exact hwf_cond
      · exact hwf_noop

theorem built_wf : ∀ {e : Expression}, Built e → WF e := by
  intro e h
  induction h with
  | noop => exact WF.cls rfl (by simp [NoOp])
  | literal hcol hpred => exact WF.cond hcol hpred
  | rawPred hpred => exact WF.cond rfl hpred
  | null hcol => exact WF.cond hcol rfl
  | notNull hcol => exact WF.cond hcol rfl
  | eq hcol => exact WF.cond hcol rfl
  | notEq hcol => exact WF.cond hcol rfl
  | gt hcol => exact WF.cond hcol rfl
  | gtEq hcol => exact WF.cond hcol rfl
  | lt hcol => exact WF.cond hcol rfl
  | ltEq hcol => exact WF.cond hcol rfl
  | between hcol => exact WF.cond hcol rfl
  | like hcol => exact WF.cond hcol rfl
  | inList hcol => exact in_wf _ _ hcol
  | notSome hbuilt ih => exact WF.neg ih
  | notNone => exact WF.cls rfl (by simp [NoOp])
  | andFree hmem ih => exact newClause_wf andConj rfl _ (fun x hx => ih x hx)
  | orFree hmem ih => exact newClause_wf orConj rfl _ (fun x hx => ih x hx)
  | andMeth ha hb iha ihb => exact and_method_wf iha ihb
  | orMeth ha hb iha ihb => exact or_method_wf iha ihb

/-- C5 counterexample: `Eq("a?", 1)` is built by a predicate factory, yet
its raw fragment `a?=?` has two placeholder characters against one
argument — a `?` inside a column name breaks the invariant. -/
theorem spec_c5_counterexample :
    countQ (Format (Eq "a?" (.aint 1)) []).1
      ≠ ((Format (Eq "a?" (.aint 1)) []).2).length := by
  decide

/-- C5 (amended): for every expression built from the predicate factories
and combinators — where the factory column names are free of `?` and any
`Literal` / `Predicate` template has exactly as many `?` as arguments —
formatting in the raw placeholder style yields a fragment whose `?` count
equals the length of the returned argument list. -/
theorem spec_c5_placeholder_count {e : Expression} (hb : Built e)
    (opts : List FormatOption)
    (hraw : placeholderFromOptions opts = ("", false)) :
    countQ (Format e opts).1 = (Format e opts).2.length := by
  have hmain := wf_fmtOK (quoterFromOptions opts)
    (qgood_quoterFromOptions opts) (built_wf hb)
  show countQ (replacePlaceholders (doFormat (quoterFromOptions opts) e).1
      (doFormat (quoterFromOptions opts) e).2
      (placeholderFromOptions opts).1 (placeholderFromOptions opts).2 1).1
    = (replacePlaceholders (doFormat (quoterFromOptions opts) e).1
      (doFormat (quoterFromOptions opts) e).2
      (placeholderFromOptions opts).1 (placeholderFromOptions opts).2 1).2.length
  rw [hraw]
  unfold replacePlaceholders
  rw [if_neg (by simp), if_pos rfl]
  exact hmain.1

/-- C5 witness: the invariant at `Eq("age", 10)` with default options. -/
theorem spec_c5_witness :
    placeholderFromOptions [] = ("", false)
    ∧ countQ (Format (Eq "age" (.aint 10)) []).1
        = ((Format (Eq "age" (.aint 10)) []).2).length := by
  have hbuilt : Built (Eq "age" (.aint 10)) := Built.eq (by decide)
  exact ⟨rfl, spec_c5_placeholder_count hbuilt [] rfl⟩

end Where
